import Mathlib

/-!
Verification development for a minimal single-node blockchain
(`src/client_mining_p/blockchain.py`).

The Python source is shallowly embedded as Lean definitions:

* SHA-256 (the library routine `hashlib.sha256(...).hexdigest()` used by the
  source) is implemented from FIPS 180-4 over `Nat`, with 32-bit words
  represented as naturals reduced modulo `2 ^ 32`.  Input strings are ASCII
  (every string hashed by this program is ASCII), so UTF-8 encoding is byte-wise
  `Char.toNat`.
* `json.dumps` is modelled for the JSON shapes this program produces: objects
  with string keys, integer numbers, strings, and arrays of strings.  Python's
  default separators are a comma-space between members and a colon-space after
  keys.  Timestamps are modelled as integer seconds (the source stores a float;
  nothing proved here depends on fractional rendering).  Transaction records
  are modelled as opaque strings: the source never defines a transaction
  schema and has no operation that creates one.
* The chain state (`Blockchain.__init__`, `new_block`, `hash`, `last_block`,
  `valid_proof`) and the `/mine` request handler become pure state-passing
  functions; the wall clock becomes an explicit timestamp argument.
-/

namespace Blockchain

/-! ## SHA-256 over Nat (FIPS 180-4) -/

/-- Reduce a natural to a 32-bit word. -/
def w32 (n : Nat) : Nat := n % 4294967296

/-- Right-rotation of a 32-bit word. -/
def rotr (n w : Nat) : Nat := w32 ((w >>> n) ||| (w <<< (32 - n)))

/-- Logical right shift. -/
def shr (n w : Nat) : Nat := w >>> n

/-- Bitwise complement of a 32-bit word. -/
def compl32 (w : Nat) : Nat := 4294967295 ^^^ w

/-- SHA-256 choice function. -/
def ch (e f g : Nat) : Nat := (e &&& f) ^^^ (compl32 e &&& g)

/-- SHA-256 majority function. -/
def maj (a b c : Nat) : Nat := (a &&& b) ^^^ (a &&& c) ^^^ (b &&& c)

/-- Big sigma-0. -/
def bsig0 (w : Nat) : Nat := rotr 2 w ^^^ rotr 13 w ^^^ rotr 22 w

/-- Big sigma-1. -/
def bsig1 (w : Nat) : Nat := rotr 6 w ^^^ rotr 11 w ^^^ rotr 25 w

/-- Small sigma-0. -/
def ssig0 (w : Nat) : Nat := rotr 7 w ^^^ rotr 18 w ^^^ shr 3 w

/-- Small sigma-1. -/
def ssig1 (w : Nat) : Nat := rotr 17 w ^^^ rotr 19 w ^^^ shr 10 w

/-- The 64 SHA-256 round constants (FIPS 180-4 §4.2.2, written in decimal). -/
def K : List Nat :=
  [1116352408, 1899447441, 3049323471, 3921009573, 961987163, 1508970993,
   2453635748, 2870763221, 3624381080, 310598401, 607225278, 1426881987,
   1925078388, 2162078206, 2614888103, 3248222580, 3835390401, 4022224774,
   264347078, 604807628, 770255983, 1249150122, 1555081692, 1996064986,
   2554220882, 2821834349, 2952996808, 3210313671, 3336571891, 3584528711,
   113926993, 338241895, 666307205, 773529912, 1294757372, 1396182291,
   1695183700, 1986661051, 2177026350, 2456956037, 2730485921, 2820302411,
   3259730800, 3345764771, 3516065817, 3600352804, 4094571909, 275423344,
   430227734, 506948616, 659060556, 883997877, 958139571, 1322822218,
   1537002063, 1747873779, 1955562222, 2024104815, 2227730452, 2361852424,
   2428436474, 2756734187, 3204031479, 3329325298]

/-- The initial SHA-256 hash value (FIPS 180-4 §5.3.3, written in decimal). -/
def H0 : List Nat :=
  [1779033703, 3144134277, 1013904242, 2773480762,
   1359893119, 2600822924, 528734635, 1541459225]

/-- Big-endian bytes of a natural, `fuel` bytes wide. -/
def beBytes : Nat → Nat → List Nat
  | 0, _ => []
  | f + 1, n => beBytes f (n / 256) ++ [n % 256]

/-- SHA-256 message padding: append `0x80`, zero bytes up to 56 mod 64,
then the 64-bit big-endian bit length. -/
def pad (msg : List Nat) : List Nat :=
  let l := msg.length
  let zeros := (119 - l % 64) % 64
  msg ++ [128] ++ List.replicate zeros 0 ++ beBytes 8 (8 * l)

/-- Pack bytes into big-endian 32-bit words (four bytes per word). -/
def bytesToWords : List Nat → List Nat
  | b1 :: b2 :: b3 :: b4 :: rest =>
      (((b1 * 256 + b2) * 256 + b3) * 256 + b4) :: bytesToWords rest
  | _ => []

/-- Split a word list into 16-word chunks, with explicit fuel. -/
def chunksF : Nat → List Nat → List (List Nat)
  | 0, _ => []
  | _, [] => []
  | f + 1, ws => ws.take 16 :: chunksF f (ws.drop 16)

/-- One step of the message-schedule extension: append the next word. -/
def extendStep (ws : List Nat) : List Nat :=
  let i := ws.length
  ws ++ [w32 (ssig1 (ws.getD (i - 2) 0) + ws.getD (i - 7) 0 +
              ssig0 (ws.getD (i - 15) 0) + ws.getD (i - 16) 0)]

/-- Iterate the message-schedule extension. -/
def extendF : Nat → List Nat → List Nat
  | 0, ws => ws
  | f + 1, ws => extendF f (extendStep ws)

/-- Extend a 16-word chunk to the 64-word message schedule. -/
def schedule (ws : List Nat) : List Nat := extendF 48 ws

/-- Working variables of the compression loop. -/
structure Hv where
  a : Nat
  b : Nat
  c : Nat
  d : Nat
  e : Nat
  f : Nat
  g : Nat
  h : Nat

/-- One SHA-256 compression round. -/
def round (st : Hv) (ki wi : Nat) : Hv :=
  let t1 := w32 (st.h + bsig1 st.e + ch st.e st.f st.g + ki + wi)
  let t2 := w32 (bsig0 st.a + maj st.a st.b st.c)
  ⟨w32 (t1 + t2), st.a, st.b, st.c, w32 (st.d + t1), st.e, st.f, st.g⟩

/-- Run the 64 compression rounds, consuming constants and schedule together. -/
def rounds : List Nat → List Nat → Hv → Hv
  | k :: ks, w :: ws, st => rounds ks ws (round st k w)
  | _, _, st => st

/-- Compress one 16-word chunk into the running hash value. -/
def compress (hv : List Nat) (chunk : List Nat) : List Nat :=
  let st0 : Hv := ⟨hv.getD 0 0, hv.getD 1 0, hv.getD 2 0, hv.getD 3 0,
                   hv.getD 4 0, hv.getD 5 0, hv.getD 6 0, hv.getD 7 0⟩
  let st := rounds K (schedule chunk) st0
  [w32 (st0.a + st.a), w32 (st0.b + st.b), w32 (st0.c + st.c),
   w32 (st0.d + st.d), w32 (st0.e + st.e), w32 (st0.f + st.f),
   w32 (st0.g + st.g), w32 (st0.h + st.h)]

/-- SHA-256 digest of a byte list, as eight 32-bit words. -/
def sha256words (msg : List Nat) : List Nat :=
  let padded := pad msg
  (chunksF padded.length (bytesToWords padded)).foldl compress H0

/-- Lowercase hex character for a value below 16. -/
def hexChar (n : Nat) : Char := "0123456789abcdef".data.getD n '0'

/-- Big-endian hex characters of a natural, `fuel` characters wide. -/
def hexF : Nat → Nat → List Char
  | 0, _ => []
  | f + 1, n => hexF f (n / 16) ++ [hexChar (n % 16)]

/-- Lowercase hex string of a word list, eight characters per word. -/
def hexOfWords (ws : List Nat) : String :=
  ⟨ws.foldr (fun w acc => hexF 8 w ++ acc) []⟩

/-- Bytes of an ASCII string. -/
def strBytes (s : String) : List Nat := s.data.map Char.toNat

/-- The `hashlib.sha256(s.encode()).hexdigest()` of the source: lowercase hex
digest of the SHA-256 of a string. -/
def sha256hex (s : String) : String := hexOfWords (sha256words (strBytes s))

set_option maxRecDepth 100000 in
example : sha256hex "abc" =
    "ba7816bf8f01cfea414140de5dae2223b00361a396177a9cb410ff61f20015ad" := by
  decide

/-! ## JSON serialization (the `json.dumps` calls of the source)

Only the JSON shapes this program produces are modelled: objects with string
keys whose values are integers, strings, or arrays of strings. -/

/-- JSON values appearing in a block of this program. -/
inductive JVal where
  | jnum (n : Int)
  | jstr (s : String)
  | jstrArr (elems : List String)
deriving DecidableEq

/-- Decimal string of an integer, as Python `str(int)` renders it. -/
def intStr : Int → String
  | .ofNat m => Nat.repr m
  | .negSucc m => "-" ++ Nat.repr (m + 1)

/-- JSON string escaping (quote and backslash; all strings this program
serializes are plain ASCII without control characters). -/
def escChar (c : Char) : String :=
  if c = '"' then "\\\"" else if c = '\\' then "\\\\" else String.singleton c

/-- Escape every character of a string. -/
def escString (s : String) : String := String.join (s.data.map escChar)

/-- A JSON string literal with surrounding quotes. -/
def jstrLit (s : String) : String := "\"" ++ escString s ++ "\""

/-- Serialize an array's members, comma-space separated. -/
def serStrList : List String → String
  | [] => ""
  | [s] => jstrLit s
  | s :: s2 :: t => jstrLit s ++ ", " ++ serStrList (s2 :: t)

/-- Serialize a JSON value. -/
def serJVal : JVal → String
  | .jnum n => intStr n
  | .jstr s => jstrLit s
  | .jstrArr l => "[" ++ serStrList l ++ "]"

/-- An in-memory block representation: a Python dict as an ordered
association list (insertion order is significant, as in CPython). -/
abbrev BlockRepr := List (String × JVal)

/-- Serialize one object member (`"key": value`). -/
def serEntry (kv : String × JVal) : String :=
  "\"" ++ kv.1 ++ "\": " ++ serJVal kv.2

/-- Serialize object members in order, comma-space separated. -/
def serEntries : BlockRepr → String
  | [] => ""
  | [kv] => serEntry kv
  | kv :: kv2 :: t => serEntry kv ++ ", " ++ serEntries (kv2 :: t)

/-- `json.dumps` of a dict with the given member order (default separators:
comma-space between members, colon-space after keys). -/
def dumpsRepr (r : BlockRepr) : String := "\x7b" ++ serEntries r ++ "\x7d"

/-- Lexicographic order on character lists (by code point). -/
def charListLe : List Char → List Char → Bool
  | [], _ => true
  | _ :: _, [] => false
  | c1 :: t1, c2 :: t2 =>
    if c1.toNat < c2.toNat then true
    else if c2.toNat < c1.toNat then false
    else charListLe t1 t2

/-- Lexicographic order on strings. -/
def strLe (s1 s2 : String) : Bool := charListLe s1.data s2.data

/-- Insert a member into a key-sorted member list. -/
def insertKey (kv : String × JVal) : BlockRepr → BlockRepr
  | [] => [kv]
  | kv2 :: t => if strLe kv.1 kv2.1 then kv :: kv2 :: t else kv2 :: insertKey kv t

/-- Sort object members by key (the `sort_keys=True` of `json.dumps`). -/
def sortKeys : BlockRepr → BlockRepr
  | [] => []
  | kv :: t => insertKey kv (sortKeys t)

/-! ## The chain data model -/

/-- The `previous_hash` field: the integer sentinel `1` for the genesis block,
a hex-digest string for every mined block. -/
inductive PrevHash where
  | pint (n : Int)
  | pstr (s : String)
deriving DecidableEq

/-- Transaction records are opaque: the source defines no transaction schema
and has no operation that creates one. -/
abbrev Transaction := String

/-- A block, with the fields `new_block` constructs, in construction order:
index, proof, timestamp, transactions, previous_hash. -/
structure Block where
  index : Nat
  proof : Int
  timestamp : Nat
  transactions : List Transaction
  previous_hash : PrevHash
deriving DecidableEq

/-- The JSON value of a `previous_hash` field. -/
def prevHashJ : PrevHash → JVal
  | .pint n => .jnum n
  | .pstr s => .jstr s

/-- The dict representation a block built by `new_block` has in memory,
in the construction order of the source. -/
def toRepr (b : Block) : BlockRepr :=
  [("index", .jnum (b.index : Int)),
   ("proof", .jnum b.proof),
   ("timestamp", .jnum (b.timestamp : Int)),
   ("transactions", .jstrArr b.transactions),
   ("previous_hash", prevHashJ b.previous_hash)]

/-- `json.dumps(block)`: insertion-order serialization. -/
def dumps (b : Block) : String := dumpsRepr (toRepr b)

/-- `json.dumps(block, sort_keys=True)`: key-sorted serialization, used by
`mine` as input to proof validation. -/
def dumpsSorted (b : Block) : String := dumpsRepr (sortKeys (toRepr b))

/-- The hash routine applied to an arbitrary in-memory dict representation. -/
def hashRepr (r : BlockRepr) : String := sha256hex (dumpsRepr r)

/-- `Blockchain.hash`: SHA-256 hexdigest of `json.dumps(block)` — note no
`sort_keys`, so the digest depends on the dict's insertion order. -/
def hashBlock (b : Block) : String := sha256hex (dumps b)

/-- `Blockchain.valid_proof`: hexdigest of the stringified previous block
concatenated with the stringified proof; valid iff the first six hex
characters are all zero. -/
def valid_proof (block_string : String) (proof : Int) : Bool :=
  let guess := block_string ++ intStr proof
  let guess_hash := sha256hex guess
  guess_hash.data.take 6 == ['0', '0', '0', '0', '0', '0']

/-- The mutable state of a `Blockchain` object: the chain and the
pending-transaction buffer. -/
structure BState where
  chain : List Block
  current_transactions : List Transaction
deriving DecidableEq

/-- Placeholder block for out-of-range list reads (never reachable in any
theorem below; bounds are always hypotheses). -/
def defaultBlock : Block := ⟨0, 0, 0, [], .pint 0⟩

/-- `Blockchain.new_block`: build the block dict, reset the buffer, append.
The wall-clock `time()` is the explicit argument `t`. -/
def new_block (s : BState) (proof : Int) (previous_hash : PrevHash) (t : Nat) :
    Block × BState :=
  let block : Block :=
    { index := s.chain.length + 1
      proof := proof
      timestamp := t
      transactions := s.current_transactions
      previous_hash := previous_hash }
  (block, { chain := s.chain ++ [block], current_transactions := [] })

/-- `Blockchain.__init__`: empty chain and buffer, then the genesis call
`new_block(previous_hash=1, proof=100)`. -/
def initState (t : Nat) : BState :=
  (new_block ⟨[], []⟩ 100 (.pint 1) t).2

/-- `Blockchain.last_block`: the chain's last element (`self.chain[-1]`). -/
def last_block (s : BState) : Block := s.chain.getLastD defaultBlock

/-- A parsed `/mine` request body: each required field may be missing. -/
structure MineReq where
  proof : Option Int
  id : Option String

/-- The core outcome of a mining attempt. -/
inductive MineOutcome where
  | malformed
  | accepted (b : Block)
  | rejected
deriving DecidableEq

/-- The `/mine` handler: reject the request if `proof` or `id` is missing;
otherwise validate the submitted proof against the key-sorted dump of the
last block and, on success, append a block whose `previous_hash` is the
insertion-order hash of the last block. -/
def mine (s : BState) (req : MineReq) (t : Nat) : MineOutcome × BState :=
  match req.proof, req.id with
  | some submitted_proof, some _ =>
    let lb := last_block s
    let last_block_string := dumpsSorted lb
    if valid_proof last_block_string submitted_proof then
      let previous_hash := hashBlock (last_block s)
      let nbs := new_block s submitted_proof (.pstr previous_hash) t
      (.accepted nbs.1, nbs.2)
    else
      (.rejected, s)
  | _, _ => (.malformed, s)

/-- States reachable by arbitrary successful `new_block` calls. -/
inductive ReachableNB : BState → Prop where
  | init (t : Nat) : ReachableNB (initState t)
  | step (s : BState) (p : Int) (ph : PrevHash) (t : Nat) :
      ReachableNB s → ReachableNB (new_block s p ph t).2

/-- States reachable by the mining flow. -/
inductive ReachableM : BState → Prop where
  | init (t : Nat) : ReachableM (initState t)
  | step (s : BState) (req : MineReq) (t : Nat) :
      ReachableM s → ReachableM (mine s req t).2

example : dumpsSorted (last_block (initState 0)) =
    "\x7b\"index\": 1, \"previous_hash\": 1, \"proof\": 100, \"timestamp\": 0, \"transactions\": []\x7d" :=
  rfl

set_option maxRecDepth 1000000 in
example : hashBlock (last_block (initState 0)) =
    "6a2778db5a0f84e917586128920ec76a0b5c14ea935f233a90a164939b86259f" := by
  decide

set_option maxRecDepth 1000000 in
example :
    valid_proof (dumpsSorted (last_block (initState 0))) 6040034 = true := by
  decide

set_option maxRecDepth 1000000 in
example :
    (mine (initState 0) ⟨some 6040034, some "node"⟩ 1).2.chain.length = 2 := by
  decide

/-! ## Helper lemmas -/

theorem hexF_length (f n : Nat) : (hexF f n).length = f := by
  induction f generalizing n with
  | zero => rfl
  | succ m ih => simp [hexF, ih]

theorem foldr_hex_length (ws : List Nat) :
    (ws.foldr (fun w acc => hexF 8 w ++ acc) []).length = 8 * ws.length := by
  induction ws with
  | nil => rfl
  | cons w t ih =>
    simp only [List.foldr, List.length_append, hexF_length, ih, List.length_cons]
    omega

theorem compress_length (hv c : List Nat) : (compress hv c).length = 8 := rfl

theorem foldl_compress_length (cs : List (List Nat)) (hv : List Nat)
    (h : hv.length = 8) : (cs.foldl compress hv).length = 8 := by
  induction cs generalizing hv with
  | nil => exact h
  | cons c t ih => exact ih _ (compress_length _ _)

theorem sha256words_length (msg : List Nat) : (sha256words msg).length = 8 :=
  foldl_compress_length _ _ rfl

theorem sha256hex_data_length (s : String) : (sha256hex s).data.length = 64 := by
  have h := foldr_hex_length (sha256words (strBytes s))
  rw [sha256words_length] at h
  exact h

theorem take_eq_replicate_zero (k : Nat) (l : List Char) (h : k ≤ l.length) :
    l.take k = List.replicate k '0' ↔ ∀ i, i < k → l.getD i ' ' = '0' := by
  induction k generalizing l with
  | zero => simp
  | succ n ih =>
    cases l with
    | nil => simp at h
    | cons c t =>
      simp only [List.take, List.replicate, List.cons.injEq]
      rw [ih t (by simpa using h)]
      constructor
      · rintro ⟨rfl, ht⟩ i hi
        cases i with
        | zero => rfl
        | succ j => simpa [List.getD_cons_succ] using ht j (by omega)
      · intro hall
        refine ⟨hall 0 (by omega), fun j hj => ?_⟩
        simpa [List.getD_cons_succ] using hall (j + 1) (by omega)

/-- Claim C1: `valid_proof(s, p)` returns true if and only if the SHA-256 hex
digest of the concatenation of `s` with the string form of `p` has the fixed
required number (six) of leading hex zero characters. -/
theorem C1_valid_proof_leading_zeros (s : String) (p : Int) :
    valid_proof s p = true ↔
      (6 ≤ (sha256hex (s ++ intStr p)).data.length ∧
       ∀ i, i < 6 → (sha256hex (s ++ intStr p)).data.getD i ' ' = '0') := by
  have hlen : (sha256hex (s ++ intStr p)).data.length = 64 :=
    sha256hex_data_length (s ++ intStr p)
  have hunf : valid_proof s p =
      ((sha256hex (s ++ intStr p)).data.take 6 ==
        ['0', '0', '0', '0', '0', '0']) := rfl
  have hrep : (['0', '0', '0', '0', '0', '0'] : List Char) =
      List.replicate 6 '0' := rfl
  rw [hunf, hrep, beq_iff_eq,
    take_eq_replicate_zero 6 (sha256hex (s ++ intStr p)).data (by omega)]
  constructor
  · intro hz
    exact ⟨by omega, hz⟩
  · intro hz
    exact hz.2

set_option maxRecDepth 1000000 in
/-- Witness for C1 at a concrete pair: the digest for the string `a1` does not
have six leading zeros, and `valid_proof` agrees. -/
theorem C1_witness :
    valid_proof "a" 1 = false ∧
      ¬ (6 ≤ (sha256hex ("a" ++ intStr 1)).data.length ∧
         ∀ i, i < 6 → (sha256hex ("a" ++ intStr 1)).data.getD i ' ' = '0') := by
  refine ⟨by decide, fun hc => ?_⟩
  have := (C1_valid_proof_leading_zeros "a" 1).mpr hc
  have hf : valid_proof "a" 1 = false := by decide
  rw [this] at hf
  simp at hf

theorem getD_append_lt {α : Type} (l l2 : List α) (d : α) (i : Nat)
    (h : i < l.length) : (l ++ l2).getD i d = l.getD i d := by
  rw [List.getD_eq_getElem l d h,
      List.getD_eq_getElem (l ++ l2) d (by simp; omega)]
  exact List.getElem_append_left ..

theorem getD_append_len {α : Type} (l : List α) (b d : α) :
    (l ++ [b]).getD l.length d = b := by
  rw [List.getD_eq_getElem (l ++ [b]) d (by simp)]
  simp

theorem getLastD_eq_getD {α : Type} (l : List α) (d : α) (h : l ≠ []) :
    l.getLastD d = l.getD (l.length - 1) d := by
  have hpos : 0 < l.length := List.length_pos.mpr h
  rw [List.getLastD_eq_getLast? d l, List.getLast?_eq_getLast l h,
      Option.getD_some, List.getLast_eq_getElem l h,
      List.getD_eq_getElem l d (by omega)]

/-- Case shape of the `mine` handler: either the state is unchanged (missing
field or invalid proof), or the request carried a proof that validates against
the key-sorted dump of the last block and the state advances by `new_block`
with the insertion-order hash of the last block. -/
theorem mine_shape (s : BState) (req : MineReq) (t : Nat) :
    (mine s req t).2 = s ∨
    ∃ p, req.proof = some p ∧
      valid_proof (dumpsSorted (last_block s)) p = true ∧
      (mine s req t).2 =
        (new_block s p (PrevHash.pstr (hashBlock (last_block s))) t).2 := by
  rcases req with ⟨op, oid⟩
  rcases op with _ | p
  · exact Or.inl rfl
  rcases oid with _ | nid
  · exact Or.inl rfl
  by_cases hv : valid_proof (dumpsSorted (last_block s)) p = true
  · refine Or.inr ⟨p, rfl, hv, ?_⟩
    simp [mine, hv]
  · left
    simp [mine, hv]

/-- Claim C4: immediately after initialization the chain is exactly one block
with index 1, sentinel previous hash 1, genesis proof 100 and no
transactions, and the pending-transaction buffer is empty. -/
theorem C4_genesis (t : Nat) :
    (initState t).chain.length = 1 ∧
    ((initState t).chain.getD 0 defaultBlock).index = 1 ∧
    ((initState t).chain.getD 0 defaultBlock).previous_hash = PrevHash.pint 1 ∧
    ((initState t).chain.getD 0 defaultBlock).proof = 100 ∧
    ((initState t).chain.getD 0 defaultBlock).transactions = [] ∧
    (initState t).current_transactions = [] :=
  ⟨rfl, rfl, rfl, rfl, rfl, rfl⟩

theorem indexOk_reachableNB (s : BState) (h : ReachableNB s) :
    ∀ i, i < s.chain.length → (s.chain.getD i defaultBlock).index = i + 1 := by
  induction h with
  | init t =>
    intro i hi
    have h1 : (initState t).chain.length = 1 := rfl
    have : i = 0 := by omega
    subst this
    rfl
  | step s p ph t hr ih =>
    intro i hi
    have hch : (new_block s p ph t).2.chain =
        s.chain ++ [(new_block s p ph t).1] := rfl
    rw [hch] at hi ⊢
    simp only [List.length_append, List.length_cons, List.length_nil] at hi
    by_cases hc : i < s.chain.length
    · rw [getD_append_lt _ _ _ _ hc]
      exact ih i hc
    · have hieq : i = s.chain.length := by omega
      subst hieq
      rw [getD_append_len]
      rfl

/-- Claim C5: in every state reachable by successful `new_block` calls from
the initialized state, `chain[i].index = i + 1` for every position, and each
new block is constructed with index `len(chain) + 1`. -/
theorem C5_index_invariant (s : BState) (h : ReachableNB s)
    (p : Int) (ph : PrevHash) (t : Nat) :
    (∀ i, i < s.chain.length → (s.chain.getD i defaultBlock).index = i + 1) ∧
    (new_block s p ph t).1.index = s.chain.length + 1 :=
  ⟨indexOk_reachableNB s h, rfl⟩

/-- Witness for C5 at the freshly initialized state. -/
theorem C5_witness :
    0 < (initState 5).chain.length ∧
    ((initState 5).chain.getD 0 defaultBlock).index = 0 + 1 ∧
    (new_block (initState 5) 7 (PrevHash.pint 0) 9).1.index =
      (initState 5).chain.length + 1 :=
  ⟨by decide,
   (C5_index_invariant (initState 5) (ReachableNB.init 5)
      7 (PrevHash.pint 0) 9).1 0 (by decide),
   (C5_index_invariant (initState 5) (ReachableNB.init 5)
      7 (PrevHash.pint 0) 9).2⟩

/-- Claim C6: a successful `new_block` call empties the pending-transaction
buffer, moves exactly the prior buffer contents into the new block, and only
appends that block at the end of the chain. -/
theorem C6_buffer_transfer (s : BState) (p : Int) (ph : PrevHash) (t : Nat) :
    (new_block s p ph t).2.current_transactions = [] ∧
    (new_block s p ph t).1.transactions = s.current_transactions ∧
    (new_block s p ph t).2.chain = s.chain ++ [(new_block s p ph t).1] :=
  ⟨rfl, rfl, rfl⟩

/-- Claim C8: blocks already in the chain are never mutated or removed; every
operation either leaves the chain unchanged or appends one block at the end,
and every previously appended block is unchanged afterwards. -/
theorem C8_append_only :
    (∀ (s : BState) (p : Int) (ph : PrevHash) (t : Nat),
       (new_block s p ph t).2.chain = s.chain ++ [(new_block s p ph t).1]) ∧
    (∀ (s : BState) (req : MineReq) (t : Nat),
       (mine s req t).2.chain = s.chain ∨
       ∃ nb, (mine s req t).2.chain = s.chain ++ [nb]) ∧
    (∀ (s : BState) (req : MineReq) (t : Nat) (i : Nat), i < s.chain.length →
       (mine s req t).2.chain.getD i defaultBlock =
         s.chain.getD i defaultBlock) := by
  refine ⟨fun s p ph t => rfl, fun s req t => ?_, fun s req t i hi => ?_⟩
  · rcases mine_shape s req t with h | ⟨p, _, _, h⟩
    · exact Or.inl (by rw [h])
    · refine Or.inr
        ⟨(new_block s p (PrevHash.pstr (hashBlock (last_block s))) t).1, ?_⟩
      rw [h]
      rfl
  · rcases mine_shape s req t with h | ⟨p, _, _, h⟩
    · rw [h]
    · rw [h]
      exact getD_append_lt _ _ _ _ hi

/-- Witness for C8 at a concrete state and request. -/
theorem C8_witness :
    0 < (initState 0).chain.length ∧
    (mine (initState 0) ⟨none, none⟩ 2).2.chain.getD 0 defaultBlock =
      (initState 0).chain.getD 0 defaultBlock :=
  ⟨by decide, C8_append_only.2.2 (initState 0) ⟨none, none⟩ 2 0 (by decide)⟩

/-- Claim C9: a mining request missing the proof or the submitter id yields
the malformed-request outcome and leaves the state unchanged. -/
theorem C9_missing_fields (s : BState) (req : MineReq) (t : Nat)
    (h : req.proof = none ∨ req.id = none) :
    (mine s req t).1 = MineOutcome.malformed ∧ (mine s req t).2 = s := by
  rcases req with ⟨op, oid⟩
  rcases op with _ | p
  · exact ⟨rfl, rfl⟩
  rcases oid with _ | nid
  · exact ⟨rfl, rfl⟩
  · simp at h

/-- Witness for C9: a request with no proof field is malformed and the state
is untouched. -/
theorem C9_witness :
    ((⟨none, some "node"⟩ : MineReq).proof = none ∨
      (⟨none, some "node"⟩ : MineReq).id = none) ∧
    (mine (initState 0) ⟨none, some "node"⟩ 3).1 = MineOutcome.malformed ∧
    (mine (initState 0) ⟨none, some "node"⟩ 3).2 = initState 0 :=
  ⟨Or.inl rfl,
   (C9_missing_fields (initState 0) ⟨none, some "node"⟩ 3 (Or.inl rfl)).1,
   (C9_missing_fields (initState 0) ⟨none, some "node"⟩ 3 (Or.inl rfl)).2⟩

/-- Claim C7: an invalid candidate proof yields the rejected outcome, distinct
from acceptance in the core return value, and leaves the state (chain and
pending buffer) entirely unchanged. -/
theorem C7_rejected (s : BState) (p : Int) (nid : String) (t : Nat)
    (h : valid_proof (dumpsSorted (last_block s)) p = false) :
    (mine s ⟨some p, some nid⟩ t).1 = MineOutcome.rejected ∧
    (mine s ⟨some p, some nid⟩ t).2 = s ∧
    ∀ b, (mine s ⟨some p, some nid⟩ t).1 ≠ MineOutcome.accepted b := by
  have hm : mine s ⟨some p, some nid⟩ t = (MineOutcome.rejected, s) := by
    simp [mine, h]
  rw [hm]
  exact ⟨rfl, rfl, fun b hb => MineOutcome.noConfusion hb⟩

set_option maxRecDepth 1000000 in
/-- Witness for C7: proof `1` does not validate against the genesis block and
is rejected without touching the state. -/
theorem C7_witness :
    valid_proof (dumpsSorted (last_block (initState 0))) 1 = false ∧
    (mine (initState 0) ⟨some 1, some "node"⟩ 4).1 = MineOutcome.rejected ∧
    (mine (initState 0) ⟨some 1, some "node"⟩ 4).2 = initState 0 :=
  ⟨by decide,
   (C7_rejected (initState 0) 1 "node" 4 (by decide)).1,
   (C7_rejected (initState 0) 1 "node" 4 (by decide)).2.1⟩

/-- Chain linkage: every non-genesis position holds the insertion-order hash
of its predecessor as it sits in the chain. -/
def Linked (l : List Block) : Prop :=
  ∀ i, 0 < i → i < l.length →
    (l.getD i defaultBlock).previous_hash =
      PrevHash.pstr (hashBlock (l.getD (i - 1) defaultBlock))

theorem linked_append (l : List Block) (nb : Block) (hne : l ≠ [])
    (hl : Linked l)
    (hnb : nb.previous_hash =
      PrevHash.pstr (hashBlock (l.getLastD defaultBlock))) :
    Linked (l ++ [nb]) := by
  intro i hi0 hile
  simp only [List.length_append, List.length_cons, List.length_nil] at hile
  by_cases hc : i < l.length
  · rw [getD_append_lt _ _ _ _ hc, getD_append_lt _ _ _ _ (by omega)]
    exact hl i hi0 hc
  · have hieq : i = l.length := by omega
    subst hieq
    have hpos : 0 < l.length := List.length_pos.mpr hne
    rw [getD_append_len,
        getD_append_lt _ _ _ _ (by omega : l.length - 1 < l.length), hnb,
        getLastD_eq_getD l defaultBlock hne]

theorem reachableM_chain (s : BState) (h : ReachableM s) :
    s.chain ≠ [] ∧ Linked s.chain := by
  induction h with
  | init t =>
    refine ⟨by simp [initState, new_block], ?_⟩
    intro i hi0 hile
    have h1 : (initState t).chain.length = 1 := rfl
    omega
  | step s req t hr ih =>
    obtain ⟨hne, hl⟩ := ih
    rcases mine_shape s req t with hcase | ⟨p, hp, hv, hcase⟩
    · rw [hcase]
      exact ⟨hne, hl⟩
    · rw [hcase]
      refine ⟨by simp [new_block], ?_⟩
      exact linked_append s.chain _ hne hl rfl

/-- Claim C2: in every state reachable by the mining flow, each non-genesis
block's `previous_hash` equals the hash of its predecessor as it was appended
(its own `previous_hash` included). -/
theorem C2_linkage (s : BState) (h : ReachableM s) (i : Nat)
    (hi : 0 < i) (hlen : i < s.chain.length) :
    (s.chain.getD i defaultBlock).previous_hash =
      PrevHash.pstr (hashBlock (s.chain.getD (i - 1) defaultBlock)) :=
  (reachableM_chain s h).2 i hi hlen

/-- The state after one accepted mining call on the initialized chain:
`6040034` is a proof whose digest against the key-sorted genesis dump has six
leading zero hex characters. -/
def minedOnce : BState := (mine (initState 0) ⟨some 6040034, some "node"⟩ 1).2

set_option maxRecDepth 1000000 in
/-- Witness for C2 on a two-block chain obtained by an accepted mining call. -/
theorem C2_witness :
    (0 : Nat) < 1 ∧ 1 < minedOnce.chain.length ∧
    (minedOnce.chain.getD 1 defaultBlock).previous_hash =
      PrevHash.pstr (hashBlock (minedOnce.chain.getD 0 defaultBlock)) :=
  ⟨Nat.one_pos, by decide,
   C2_linkage minedOnce
     (ReachableM.step (initState 0) ⟨some 6040034, some "node"⟩ 1
       (ReachableM.init 0))
     1 Nat.one_pos (by decide)⟩

/-! ## Claim C3: is the hash determined by the logical block value? -/

/-- Dict lookup by key, first match wins (CPython dict semantics on an
ordered association list without duplicate keys). -/
def lookupJ (k : String) : BlockRepr → Option JVal
  | [] => none
  | kv :: t => if k = kv.1 then some kv.2 else lookupJ k t

theorem lookupJ_eq_none (k : String) (r : BlockRepr)
    (h : k ∉ r.map Prod.fst) : lookupJ k r = none := by
  induction r with
  | nil => rfl
  | cons kv t ih =>
    simp only [List.map_cons, List.mem_cons] at h
    push_neg at h
    simp only [lookupJ]
    rw [if_neg h.1]
    exact ih h.2

theorem reprEq_of_lookups (r1 r2 : BlockRepr)
    (hkeys : r1.map Prod.fst = r2.map Prod.fst)
    (hnd : (r1.map Prod.fst).Nodup)
    (hval : ∀ k, lookupJ k r1 = lookupJ k r2) : r1 = r2 := by
  induction r1 generalizing r2 with
  | nil =>
    cases r2 with
    | nil => rfl
    | cons kv t => simp at hkeys
  | cons kv t ih =>
    cases r2 with
    | nil => simp at hkeys
    | cons kv2 t2 =>
      obtain ⟨k1, v1⟩ := kv
      obtain ⟨k2, v2⟩ := kv2
      simp only [List.map_cons, List.cons.injEq] at hkeys
      obtain ⟨hk, ht⟩ := hkeys
      subst hk
      simp only [List.map_cons, List.nodup_cons] at hnd
      have hv12 : v1 = v2 := by
        have hx := hval k1
        simp only [lookupJ, if_pos rfl] at hx
        exact Option.some.inj hx
      subst hv12
      have hvt : ∀ k, lookupJ k t = lookupJ k t2 := by
        intro k
        by_cases hkk : k = k1
        · subst hkk
          rw [lookupJ_eq_none k t hnd.1,
              lookupJ_eq_none k t2 (by rw [← ht]; exact hnd.1)]
        · have hx := hval k
          simp only [lookupJ, if_neg hkk] at hx
          exact hx
      rw [ih t2 ht hnd.2 hvt]

/-- The genesis dict in the construction order of `new_block`. -/
def reprA : BlockRepr :=
  [("index", .jnum 1), ("proof", .jnum 100), ("timestamp", .jnum 0),
   ("transactions", .jstrArr []), ("previous_hash", .jnum 1)]

/-- The same key-value pairs built in a different insertion order. -/
def reprB : BlockRepr :=
  [("index", .jnum 1), ("previous_hash", .jnum 1), ("proof", .jnum 100),
   ("timestamp", .jnum 0), ("transactions", .jstrArr [])]

set_option maxRecDepth 1000000 in
/-- Counterexample to C3 as stated: two in-memory representations of the same
logical block content (a permutation with duplicate-free keys) on which the
hash routine produces different digests — `json.dumps` without `sort_keys`
serializes in insertion order, so the digest depends on construction order. -/
theorem C3_counterexample :
    reprA.Perm reprB ∧ (reprA.map Prod.fst).Nodup ∧
    hashRepr reprA ≠ hashRepr reprB :=
  ⟨by decide, by decide, by decide⟩

/-- Claim C3 as amended: the digest is determined by the ordered in-memory
representation — two representations with the same key sequence (in the same
order, duplicate-free) and the same value at every key hash identically. -/
theorem C3_hash_same_order (r1 r2 : BlockRepr)
    (hkeys : r1.map Prod.fst = r2.map Prod.fst)
    (hnd : (r1.map Prod.fst).Nodup)
    (hval : ∀ k, lookupJ k r1 = lookupJ k r2) :
    hashRepr r1 = hashRepr r2 := by
  rw [reprEq_of_lookups r1 r2 hkeys hnd hval]

set_option maxRecDepth 1000000 in
/-- Witness for the amended C3 at a concrete representation. -/
theorem C3_witness :
    (reprA.map Prod.fst).Nodup ∧ hashRepr reprA = hashRepr reprA :=
  ⟨by decide, C3_hash_same_order reprA reprA rfl (by decide) (fun k => rfl)⟩

/-! ## Claim C10: the two serializations of one block always differ -/

theorem data_append (a b : String) : (a ++ b).data = a.data ++ b.data := rfl

/-- Sorting the five construction-order keys yields the lexicographic order
index, previous_hash, proof, timestamp, transactions. -/
theorem sortKeys_toRepr (b : Block) :
    sortKeys (toRepr b) =
      [("index", JVal.jnum (b.index : Int)),
       ("previous_hash", prevHashJ b.previous_hash),
       ("proof", JVal.jnum b.proof),
       ("timestamp", JVal.jnum (b.timestamp : Int)),
       ("transactions", JVal.jstrArr b.transactions)] := rfl

/-- Claim C10: for every block, the key-sorted serialization fed to
`valid_proof` by the mining flow differs from the insertion-order
serialization whose digest becomes the next block's `previous_hash`. -/
theorem C10_dump_divergence (b : Block) : dumpsSorted b ≠ dumps b := by
  intro h
  have hd := congrArg String.data h
  simp only [dumpsSorted, sortKeys_toRepr, dumps, toRepr, dumpsRepr,
    serEntries, serEntry, serJVal, data_append, List.append_assoc] at hd
  replace hd := List.append_cancel_left hd
  replace hd := List.append_cancel_left hd
  replace hd := List.append_cancel_left hd
  replace hd := List.append_cancel_left hd
  replace hd := List.append_cancel_left hd
  replace hd := List.append_cancel_left hd
  replace hd := List.append_cancel_left hd
  have heo : ('e' : Char) = 'o' := congrArg (fun l => l.getD 2 ' ') hd
  exact absurd heo (by decide)

end Blockchain
